import Mathlib

/-!
Verification of the gym-management records manager (gym_management.c).

The core data structure is a binary search tree over composite string keys
("E_<code>" for events, "T_<code>_<seat>" for tickets) storing a tagged union
of event and ticket payloads.  The definitions below are a shallow embedding
of the C functions; the theorems settle the specification claims about them.
-/

/-- Kernel-reducible decidability for the lexicographic string order used by
strcmp, routed through the character-list order so that concrete instances
evaluate. -/
instance (priority := 2000) strLtDec (s t : String) : Decidable (s < t) :=
  decidable_of_iff (s.toList < t.toList) String.lt_iff_toList_lt.symm

/-- Tag of a tree node, from the C enum NodeType. -/
inductive NodeType where
  | EVENT_NODE
  | TICKET_NODE
deriving DecidableEq, Repr

/-- Event payload, from the C struct Event. -/
structure Event where
  date : String
  time : String
  code : Int
  title : String
deriving DecidableEq, Repr

/-- Ticket payload, from the C struct Ticket. -/
structure Ticket where
  seat : String
  afm : String
  firstName : String
  lastName : String
  eventCode : Int
deriving DecidableEq, Repr

/-- Tagged payload of a node: the C union together with its NodeType tag
(createNode always keeps tag and live union member consistent, so a sum
type renders the pair faithfully). -/
inductive RecordData where
  | eventData (e : Event)
  | ticketData (t : Ticket)
deriving DecidableEq, Repr

/-- Tag of a payload (the node's `type` field). -/
def RecordData.nodeType : RecordData → NodeType
  | .eventData _ => .EVENT_NODE
  | .ticketData _ => .TICKET_NODE

/-- Tree shape, from the C struct TreeNode (key, tag+union, left, right);
NULL pointers become the nil constructor. -/
inductive TreeNode where
  | nil
  | node (key : String) (data : RecordData) (left right : TreeNode)
deriving DecidableEq, Repr

/-- createNode: a fresh leaf holding the given key and payload. -/
def createNode (key : String) (data : RecordData) : TreeNode :=
  .node key data .nil .nil

/-- insertNode: standard BST insertion by strcmp order; on an equal key the
call does nothing ("If the key already exists, do nothing"). -/
def insertNode : TreeNode → String → RecordData → TreeNode
  | .nil, key, data => createNode key data
  | .node k d l r, key, data =>
    if key < k then .node k d (insertNode l key data) r
    else if k < key then .node k d l (insertNode r key data)
    else .node k d l r

/-- searchNode: standard BST descent; returns the payload at the matching
key, none when the key is absent. -/
def searchNode : TreeNode → String → Option RecordData
  | .nil, _ => none
  | .node k d l r, key =>
    if k = key then some d
    else if key < k then searchNode l key
    else searchNode r key

/-- findMin: descend left while a left child exists; none exactly on the
empty tree (the C function returns NULL exactly when given NULL). -/
def findMin : TreeNode → Option (String × RecordData)
  | .nil => none
  | .node k d .nil _ => some (k, d)
  | .node _ _ (.node lk ld ll lr) _ => findMin (.node lk ld ll lr)

/-- deleteNode: standard BST deletion.  Zero/one child: splice the child in;
two children: copy the in-order successor's key, tag and payload into the
node and delete the successor's key from the right subtree.  (The final
fallback arm is unreachable: findMin of a non-empty tree always succeeds.) -/
def deleteNode : TreeNode → String → TreeNode
  | .nil, _ => .nil
  | .node k d l r, key =>
    if key < k then .node k d (deleteNode l key) r
    else if k < key then .node k d l (deleteNode r key)
    else
      match l, r with
      | .nil, _ => r
      | .node lk ld ll lr, .nil => .node lk ld ll lr
      | .node lk ld ll lr, .node rk rd rl rr =>
        match findMin (.node rk rd rl rr) with
        | some (mk, md) =>
          .node mk md (.node lk ld ll lr) (deleteNode (.node rk rd rl rr) mk)
        | none => .node k d (.node lk ld ll lr) (.node rk rd rl rr)

/-- In-order list of (key, payload) pairs of the tree. -/
def toList : TreeNode → List (String × RecordData)
  | .nil => []
  | .node k d l r => toList l ++ (k, d) :: toList r

/-- In-order list of the keys of the tree. -/
def keys (t : TreeNode) : List String := (toList t).map Prod.fst

/-- collectTicketKeysForEvent: in-order collection of the keys of every
ticket node whose eventCode matches (the growable C array becomes the
returned list). -/
def collectTicketKeysForEvent : TreeNode → Int → List String
  | .nil, _ => []
  | .node k d l r, eventCode =>
    collectTicketKeysForEvent l eventCode ++
    (match d with
     | .ticketData tk => if tk.eventCode = eventCode then [k] else []
     | .eventData _ => []) ++
    collectTicketKeysForEvent r eventCode

/-- Key of an event record: sprintf("E_%d", code). -/
def eventKey (code : Int) : String := "E_" ++ toString code

/-- Key of a ticket record: sprintf("T_%d_%s", eventCode, seat). -/
def ticketKey (eventCode : Int) (seat : String) : String :=
  "T_" ++ toString eventCode ++ "_" ++ seat

/-- Characters treated as whitespace by C's atoi (isspace in the C locale). -/
def isSpaceC (c : Char) : Bool :=
  c = ' ' || c = '\t' || c = '\n' || c = '\x0b' || c = '\x0c' || c = '\r'

/-- Digit-accumulation loop of atoi: consume leading decimal digits,
stop at the first non-digit. -/
def atoiDigits : List Char → Int → Int
  | [], acc => acc
  | c :: cs, acc =>
    if c.isDigit then atoiDigits cs (acc * 10 + ((c.toNat : Int) - ('0'.toNat : Int)))
    else acc

/-- atoi: skip whitespace, read an optional sign, then a maximal run of
digits; yields 0 when no digit follows. -/
def atoi (s : String) : Int :=
  match s.data.dropWhile isSpaceC with
  | '-' :: rest => -(atoiDigits rest 0)
  | '+' :: rest => atoiDigits rest 0
  | rest => atoiDigits rest 0

/-- validateSeat: length 2..4, first character case-insensitively in a..h,
and atoi of the remaining characters in 1..500. -/
def validateSeat (seat : String) : Bool :=
  if seat.length < 2 || 4 < seat.length then false
  else
    let sectionChar := (seat.data.headD ' ').toLower
    if sectionChar < 'a' || 'h' < sectionChar then false
    else
      let number := atoi (String.mk (seat.data.drop 1))
      if number < 1 || 500 < number then false
      else true

/-- Decimal parse of a whole character sequence: succeeds only when the
sequence is non-empty and consists solely of digits. -/
def decimalValue? (cs : List Char) : Option Nat :=
  if cs ≠ [] ∧ cs.all Char.isDigit then
    some (cs.foldl (fun acc c => acc * 10 + (c.toNat - '0'.toNat)) 0)
  else none

/-- Seat validity exactly as the specification words it: 2-4 characters,
first character case-insensitively in a-h, and the remaining characters
parse as an integer in the range [1, 500]. -/
def specSeatValid (seat : String) : Bool :=
  decide (2 ≤ seat.length) && decide (seat.length ≤ 4) &&
  decide ('a' ≤ (seat.data.headD ' ').toLower) &&
  decide ((seat.data.headD ' ').toLower ≤ 'h') &&
  (match decimalValue? (seat.data.drop 1) with
   | some n => decide (1 ≤ n) && decide (n ≤ 500)
   | none => false)

/-- Outcome kinds of the catalog operations (printed error messages of the
C functions: "Invalid code", "already exists", "No event exists",
"Invalid seat", "already booked"). -/
inductive CatalogError where
  | InvalidCode
  | DuplicateKey
  | UnknownEvent
  | InvalidSeatFormat
  | SeatTaken
deriving DecidableEq, Repr

/-- addEvent: reject a negative code, reject a duplicate event key, else
insert the event under its key.  Returns the new root and the error, if any. -/
def addEvent (root : TreeNode) (ev : Event) : TreeNode × Option CatalogError :=
  if ev.code < 0 then (root, some .InvalidCode)
  else if (searchNode root (eventKey ev.code)).isSome then (root, some .DuplicateKey)
  else (insertNode root (eventKey ev.code) (.eventData ev), none)

/-- addTicket: reject a negative event code, then an unknown event, then an
invalid seat string, then an already-booked seat; else insert the ticket. -/
def addTicket (root : TreeNode) (tk : Ticket) : TreeNode × Option CatalogError :=
  if tk.eventCode < 0 then (root, some .InvalidCode)
  else if (searchNode root (eventKey tk.eventCode)).isNone then (root, some .UnknownEvent)
  else if validateSeat tk.seat = false then (root, some .InvalidSeatFormat)
  else if (searchNode root (ticketKey tk.eventCode tk.seat)).isSome then (root, some .SeatTaken)
  else (insertNode root (ticketKey tk.eventCode tk.seat) (.ticketData tk), none)

/-- Outcome of findEvent. -/
inductive FindResult where
  | invalidCode
  | found (d : RecordData)
  | notFound
deriving DecidableEq, Repr

/-- findEvent: reject a negative code, else a plain search on the event key. -/
def findEvent (root : TreeNode) (code : Int) : FindResult :=
  if code < 0 then .invalidCode
  else
    match searchNode root (eventKey code) with
    | some d => .found d
    | none => .notFound

/-- removeEvent: reject a negative code, then an absent event; otherwise
collect every dependent ticket key, delete the collected keys one at a
time, and finally delete the event key. -/
def removeEvent (root : TreeNode) (code : Int) : TreeNode × Option CatalogError :=
  if code < 0 then (root, some .InvalidCode)
  else if (searchNode root (eventKey code)).isNone then (root, some .UnknownEvent)
  else
    let keysToDelete := collectTicketKeysForEvent root code
    let root1 := keysToDelete.foldl deleteNode root
    (deleteNode root1 (eventKey code), none)

/-- searchNode with the heap threaded through: the C function performs no
store to any node, so the returned tree is the one it received, rebuilt
along the descent path. -/
def searchNodeFr : TreeNode → String → Option RecordData × TreeNode
  | .nil, _ => (none, .nil)
  | .node k d l r, key =>
    if k = key then (some d, .node k d l r)
    else if key < k then
      let p := searchNodeFr l key
      (p.1, .node k d p.2 r)
    else
      let p := searchNodeFr r key
      (p.1, .node k d l p.2)

/-- findMin with the heap threaded through (the C loop only moves a local
cursor pointer). -/
def findMinFr : TreeNode → Option (String × RecordData) × TreeNode
  | .nil => (none, .nil)
  | .node k d .nil r => (some (k, d), .node k d .nil r)
  | .node k d (.node lk ld ll lr) r =>
    let p := findMinFr (.node lk ld ll lr)
    (p.1, .node k d p.2 r)

/-- inorderTraversalPrint with the heap threaded through; the first
component is the sequence of records the C function prints. -/
def inorderTraversalPrintFr :
    TreeNode → NodeType → Int → List (String × RecordData) × TreeNode
  | .nil, _, _ => ([], .nil)
  | .node k d l r, filterType, eventCodeFilter =>
    let pl := inorderTraversalPrintFr l filterType eventCodeFilter
    let emitted :=
      if d.nodeType = filterType then
        match d with
        | .eventData _ => [(k, d)]
        | .ticketData tk =>
          if eventCodeFilter = -1 ∨ tk.eventCode = eventCodeFilter then [(k, d)] else []
      else []
    let pr := inorderTraversalPrintFr r filterType eventCodeFilter
    (pl.1 ++ emitted ++ pr.1, .node k d pl.2 pr.2)

/-- collectTicketKeysForEvent with the heap threaded through; the first
component is the collected key list. -/
def collectTicketKeysForEventFr : TreeNode → Int → List String × TreeNode
  | .nil, _ => ([], .nil)
  | .node k d l r, eventCode =>
    let pl := collectTicketKeysForEventFr l eventCode
    let emitted :=
      match d with
      | .ticketData tk => if tk.eventCode = eventCode then [k] else []
      | .eventData _ => []
    let pr := collectTicketKeysForEventFr r eventCode
    (pl.1 ++ emitted ++ pr.1, .node k d pl.2 pr.2)

/-- One raw index operation (insertion or deletion). -/
inductive Op where
  | ins (key : String) (d : RecordData)
  | del (key : String)

/-- Apply one raw index operation. -/
def applyOp (t : TreeNode) : Op → TreeNode
  | .ins key d => insertNode t key d
  | .del key => deleteNode t key

/-- Apply a sequence of raw index operations starting from the empty tree. -/
def applyOps (ops : List Op) : TreeNode := ops.foldl applyOp .nil

/-- One catalog (orchestration-level) operation. -/
inductive CatOp where
  | addEventOp (ev : Event)
  | addTicketOp (tk : Ticket)
  | removeEventOp (code : Int)

/-- Apply one catalog operation to the root (keeping only the tree). -/
def applyCatOp (t : TreeNode) : CatOp → TreeNode
  | .addEventOp ev => (addEvent t ev).1
  | .addTicketOp tk => (addTicket t tk).1
  | .removeEventOp c => (removeEvent t c).1

/-- Apply a sequence of catalog operations starting from the empty tree. -/
def applyCatOps (ops : List CatOp) : TreeNode := ops.foldl applyCatOp .nil

/-- Every (key, payload) pair of the tree satisfies p. -/
inductive ForallTree (p : String → RecordData → Prop) : TreeNode → Prop where
  | nil : ForallTree p .nil
  | node {k : String} {d : RecordData} {l r : TreeNode} :
      p k d → ForallTree p l → ForallTree p r → ForallTree p (.node k d l r)

/-- Strict binary-search-tree property: at every node, all keys of the left
subtree are smaller and all keys of the right subtree are larger. -/
inductive BST : TreeNode → Prop where
  | nil : BST .nil
  | node {k : String} {d : RecordData} {l r : TreeNode} :
      ForallTree (fun x _ => x < k) l → ForallTree (fun x _ => k < x) r →
      BST l → BST r → BST (.node k d l r)

/-- ForallTree is decidable (needed to evaluate BST on concrete trees). -/
def decForallTree (p : String → RecordData → Prop) [inst : ∀ k d, Decidable (p k d)] :
    (t : TreeNode) → Decidable (ForallTree p t)
  | .nil => isTrue .nil
  | .node k d l r =>
    match inst k d with
    | isFalse h => isFalse (fun hf => by cases hf; exact h (by assumption))
    | isTrue hp =>
      match decForallTree p l with
      | isFalse h => isFalse (fun hf => by cases hf; exact h (by assumption))
      | isTrue hl =>
        match decForallTree p r with
        | isFalse h => isFalse (fun hf => by cases hf; exact h (by assumption))
        | isTrue hr => isTrue (.node hp hl hr)

instance instDecForallTree (p : String → RecordData → Prop) [∀ k d, Decidable (p k d)]
    (t : TreeNode) : Decidable (ForallTree p t) := decForallTree p t

/-- BST is decidable (needed to evaluate BST on concrete trees). -/
def decBST : (t : TreeNode) → Decidable (BST t)
  | .nil => isTrue .nil
  | .node k d l r =>
    match instDecForallTree (fun x _ => x < k) l with
    | isFalse h => isFalse (fun hf => by cases hf; exact h (by assumption))
    | isTrue hfl =>
      match instDecForallTree (fun x _ => k < x) r with
      | isFalse h => isFalse (fun hf => by cases hf; exact h (by assumption))
      | isTrue hfr =>
        match decBST l with
        | isFalse h => isFalse (fun hf => by cases hf; exact h (by assumption))
        | isTrue hl =>
          match decBST r with
          | isFalse h => isFalse (fun hf => by cases hf; exact h (by assumption))
          | isTrue hr => isTrue (.node hfl hfr hl hr)

instance instDecBST (t : TreeNode) : Decidable (BST t) := decBST t

/-- A key of the shape the catalog builds: an event or ticket key for a
non-negative code. -/
def GoodKey (k : String) : Prop :=
  ∃ c : Int, 0 ≤ c ∧ (k = eventKey c ∨ ∃ s : String, k = ticketKey c s)

/-- Fixture: an event record used to evaluate theorems on concrete input. -/
def sampleEvent1 : Event := ⟨"01/01/2025", "10:00", 1, "Yoga"⟩

/-- Fixture: a second event record. -/
def sampleEvent2 : Event := ⟨"02/01/2025", "11:00", 2, "Pilates"⟩

/-- Fixture: a ticket of event 1. -/
def sampleTicket1 : Ticket := ⟨"a1", "123456789", "Ann", "Lee", 1⟩

/-- Fixture: a second ticket of event 1. -/
def sampleTicket2 : Ticket := ⟨"b2", "987654321", "Bob", "Roe", 1⟩

/-- Fixture: a tree holding event 1 with two tickets and event 2. -/
def sampleRoot : TreeNode :=
  insertNode
    (insertNode
      (insertNode
        (insertNode .nil (eventKey 1) (.eventData sampleEvent1))
        (ticketKey 1 "a1") (.ticketData sampleTicket1))
      (ticketKey 1 "b2") (.ticketData sampleTicket2))
    (eventKey 2) (.eventData sampleEvent2)

/-- Inversion of ForallTree at a node. -/
theorem forallTree_node_iff {p : String → RecordData → Prop} {k d l r} :
    ForallTree p (.node k d l r) ↔ p k d ∧ ForallTree p l ∧ ForallTree p r := by
  constructor
  · rintro ⟨⟩; exact ⟨by assumption, by assumption, by assumption⟩
  · rintro ⟨h1, h2, h3⟩; exact .node h1 h2 h3

/-- Inversion of BST at a node. -/
theorem bst_node_iff {k d l r} :
    BST (.node k d l r) ↔
      ForallTree (fun x _ => x < k) l ∧ ForallTree (fun x _ => k < x) r ∧ BST l ∧ BST r := by
  constructor
  · rintro ⟨⟩; exact ⟨by assumption, by assumption, by assumption, by assumption⟩
  · rintro ⟨h1, h2, h3, h4⟩; exact .node h1 h2 h3 h4

theorem toList_node {k d l r} :
    toList (.node k d l r) = toList l ++ (k, d) :: toList r := rfl

theorem keys_nil : keys .nil = [] := rfl

theorem keys_node {k d l r} :
    keys (.node k d l r) = keys l ++ k :: keys r := by
  simp [keys, toList]

/-- A key occurs in the tree exactly when some pair with that key does. -/
theorem mem_keys {t : TreeNode} {k : String} :
    k ∈ keys t ↔ ∃ d, (k, d) ∈ toList t := by
  simp only [keys, List.mem_map]
  constructor
  · rintro ⟨⟨a, b⟩, hmem, rfl⟩
    exact ⟨b, hmem⟩
  · rintro ⟨d, hd⟩
    exact ⟨(k, d), hd, rfl⟩

/-- ForallTree is universal quantification over the in-order pair list. -/
theorem forallTree_iff_toList {p : String → RecordData → Prop} {t : TreeNode} :
    ForallTree p t ↔ ∀ pr ∈ toList t, p pr.1 pr.2 := by
  induction t with
  | nil =>
    constructor
    · intro _ pr h
      simp [toList] at h
    · intro _
      exact .nil
  | node k d l r ihl ihr =>
    rw [forallTree_node_iff, ihl, ihr, toList_node]
    simp only [List.forall_mem_append, List.forall_mem_cons]
    tauto

/-- Specialization of ForallTree to a predicate on keys. -/
theorem forallTree_keys {p : String → Prop} {t : TreeNode}
    (h : ForallTree (fun x _ => p x) t) {k : String} (hk : k ∈ keys t) : p k := by
  rcases mem_keys.mp hk with ⟨d, hd⟩
  exact forallTree_iff_toList.mp h (k, d) hd

/-- A BST's in-order key sequence is strictly ascending. -/
theorem keys_sorted {t : TreeNode} (h : BST t) : (keys t).Sorted (· < ·) := by
  induction t with
  | nil => simp [keys_nil, List.Sorted]
  | node k d l r ihl ihr =>
    rcases bst_node_iff.mp h with ⟨hfl, hfr, hbl, hbr⟩
    rw [keys_node]
    rw [List.Sorted, List.pairwise_append]
    refine ⟨ihl hbl, ?_, ?_⟩
    · rw [List.pairwise_cons]
      exact ⟨fun b hb => forallTree_keys hfr hb, ihr hbr⟩
    · intro a ha b hb
      rcases List.mem_cons.mp hb with rfl | hb
      · exact forallTree_keys hfl ha
      · exact lt_trans (forallTree_keys hfl ha) (forallTree_keys hfr hb)

/-- A BST has no duplicate keys. -/
theorem keys_nodup {t : TreeNode} (h : BST t) : (keys t).Nodup :=
  (keys_sorted h).nodup

/-- A successful search finds an in-order pair of the tree. -/
theorem mem_toList_of_search {t : TreeNode} {k : String} {d : RecordData}
    (h : searchNode t k = some d) : (k, d) ∈ toList t := by
  induction t with
  | nil => simp [searchNode] at h
  | node k0 d0 l r ihl ihr =>
    rw [searchNode] at h
    rw [toList_node]
    simp only [List.mem_append, List.mem_cons]
    by_cases h1 : k0 = k
    · rw [if_pos h1] at h
      cases h
      subst h1
      tauto
    · rw [if_neg h1] at h
      by_cases h2 : k < k0
      · rw [if_pos h2] at h
        exact Or.inl (ihl h)
      · rw [if_neg h2] at h
        exact Or.inr (Or.inr (ihr h))

/-- In a BST, every in-order pair is found by searching for its key. -/
theorem search_of_mem_toList {t : TreeNode} {key : String} {dd : RecordData}
    (hb : BST t) (h : (key, dd) ∈ toList t) : searchNode t key = some dd := by
  induction t with
  | nil => simp [toList] at h
  | node k d l r ihl ihr =>
    rcases bst_node_iff.mp hb with ⟨hfl, hfr, hbl, hbr⟩
    rw [searchNode]
    rw [toList_node] at h
    simp only [List.mem_append, List.mem_cons] at h
    by_cases hk : k = key
    · subst hk
      rw [if_pos rfl]
      rcases h with h | h | h
      · exact absurd (forallTree_iff_toList.mp hfl _ h) (lt_irrefl _)
      · rw [Prod.mk.injEq] at h
        rw [h.2]
      · exact absurd (forallTree_iff_toList.mp hfr _ h) (lt_irrefl _)
    · rw [if_neg hk]
      by_cases hlt : key < k
      · rw [if_pos hlt]
        rcases h with h | h | h
        · exact ihl hbl h
        · rw [Prod.mk.injEq] at h
          exact absurd h.1.symm hk
        · exact absurd hlt (asymm (forallTree_iff_toList.mp hfr _ h))
      · rw [if_neg hlt]
        rcases h with h | h | h
        · exact absurd (forallTree_iff_toList.mp hfl _ h) hlt
        · rw [Prod.mk.injEq] at h
          exact absurd h.1.symm hk
        · exact ihr hbr h

/-- In a BST, a key determines its payload. -/
theorem toList_payload_unique {t : TreeNode} (hb : BST t) {k : String}
    {d1 d2 : RecordData} (h1 : (k, d1) ∈ toList t) (h2 : (k, d2) ∈ toList t) :
    d1 = d2 := by
  have e1 := search_of_mem_toList hb h1
  have e2 := search_of_mem_toList hb h2
  rw [e1] at e2
  cases e2
  rfl

/-- In a BST, search succeeds exactly on the keys present in the tree. -/
theorem search_isSome_iff_mem {t : TreeNode} (hb : BST t) {k : String} :
    (searchNode t k).isSome ↔ k ∈ keys t := by
  constructor
  · intro h
    rcases Option.isSome_iff_exists.mp h with ⟨d, hd⟩
    exact mem_keys.mpr ⟨d, mem_toList_of_search hd⟩
  · intro h
    rcases mem_keys.mp h with ⟨d, hd⟩
    rw [search_of_mem_toList hb hd]
    rfl

/-- In a BST, search fails exactly on the keys absent from the tree. -/
theorem search_eq_none_iff {t : TreeNode} (hb : BST t) {k : String} :
    searchNode t k = none ↔ k ∉ keys t := by
  rw [← search_isSome_iff_mem hb]
  cases searchNode t k <;> simp

/-- Inserting a fresh key makes it findable, with the inserted payload. -/
theorem search_insert_self {t : TreeNode} {key : String} {d : RecordData}
    (h : searchNode t key = none) :
    searchNode (insertNode t key d) key = some d := by
  induction t with
  | nil => simp [insertNode, createNode, searchNode]
  | node k0 d0 l r ihl ihr =>
    rw [searchNode] at h
    rw [insertNode]
    by_cases h1 : k0 = key
    · rw [if_pos h1] at h
      cases h
    · rw [if_neg h1] at h
      by_cases h2 : key < k0
      · rw [if_pos h2] at h
        rw [if_pos h2, searchNode, if_neg h1, if_pos h2]
        exact ihl h
      · rw [if_neg h2] at h
        have h3 : k0 < key := lt_of_le_of_ne (not_lt.mp h2) h1
        rw [if_neg h2, if_pos h3, searchNode, if_neg h1, if_neg h2]
        exact ihr h

/-- Insertion does not disturb searches for any other key. -/
theorem search_insert_ne {t : TreeNode} {key : String} {d : RecordData}
    {k2 : String} (hne : k2 ≠ key) :
    searchNode (insertNode t key d) k2 = searchNode t k2 := by
  induction t with
  | nil =>
    have hkey : ¬ (key = k2) := fun h => hne h.symm
    simp [insertNode, createNode, searchNode, hkey]
  | node k0 d0 l r ihl ihr =>
    rw [insertNode]
    by_cases h2 : key < k0
    · rw [if_pos h2, searchNode, searchNode]
      by_cases h1 : k0 = k2
      · rw [if_pos h1, if_pos h1]
      · rw [if_neg h1, if_neg h1]
        by_cases h3 : k2 < k0
        · rw [if_pos h3, if_pos h3, ihl]
        · rw [if_neg h3, if_neg h3]
    · rw [if_neg h2]
      by_cases h4 : k0 < key
      · rw [if_pos h4, searchNode, searchNode]
        by_cases h1 : k0 = k2
        · rw [if_pos h1, if_pos h1]
        · rw [if_neg h1, if_neg h1]
          by_cases h3 : k2 < k0
          · rw [if_pos h3, if_pos h3]
          · rw [if_neg h3, if_neg h3, ihr]
      · rw [if_neg h4]

/-- Inserting a key that search already finds is a no-op. -/
theorem insert_no_op {t : TreeNode} {key : String} {d : RecordData}
    (h : (searchNode t key).isSome) : insertNode t key d = t := by
  induction t with
  | nil => simp [searchNode] at h
  | node k0 d0 l r ihl ihr =>
    rw [searchNode] at h
    rw [insertNode]
    by_cases h1 : k0 = key
    · subst h1
      rw [if_neg (lt_irrefl k0), if_neg (lt_irrefl k0)]
    · rw [if_neg h1] at h
      by_cases h2 : key < k0
      · rw [if_pos h2] at h ⊢
        rw [ihl h]
      · rw [if_neg h2] at h ⊢
        have h3 : k0 < key := lt_of_le_of_ne (not_lt.mp h2) h1
        rw [if_pos h3, ihr h]

/-- The inserted key is present afterwards. -/
theorem mem_keys_insert_self {t : TreeNode} {key : String} {d : RecordData} :
    key ∈ keys (insertNode t key d) := by
  induction t with
  | nil => simp [insertNode, createNode, keys, toList]
  | node k0 d0 l r ihl ihr =>
    rw [insertNode]
    by_cases h2 : key < k0
    · rw [if_pos h2, keys_node]
      simp only [List.mem_append, List.mem_cons]
      exact Or.inl ihl
    · rw [if_neg h2]
      by_cases h4 : k0 < key
      · rw [if_pos h4, keys_node]
        simp only [List.mem_append, List.mem_cons]
        exact Or.inr (Or.inr ihr)
      · have h1 : k0 = key := le_antisymm (not_lt.mp h2) (not_lt.mp h4)
        rw [if_neg h4, keys_node]
        simp only [List.mem_append, List.mem_cons]
        exact Or.inr (Or.inl h1.symm)

/-- Insertion adds no key other than the inserted one. -/
theorem mem_keys_insert_sub {t : TreeNode} {key : String} {d : RecordData}
    {k2 : String} (h : k2 ∈ keys (insertNode t key d)) :
    k2 = key ∨ k2 ∈ keys t := by
  induction t with
  | nil =>
    simp [insertNode, createNode, keys, toList] at h
    exact Or.inl h
  | node k0 d0 l r ihl ihr =>
    rw [insertNode] at h
    by_cases h2 : key < k0
    · rw [if_pos h2, keys_node] at h
      rw [keys_node]
      simp only [List.mem_append, List.mem_cons] at h ⊢
      rcases h with h | h
      · rcases ihl h with h | h
        · exact Or.inl h
        · exact Or.inr (Or.inl h)
      · exact Or.inr (Or.inr h)
    · rw [if_neg h2] at h
      by_cases h4 : k0 < key
      · rw [if_pos h4, keys_node] at h
        rw [keys_node]
        simp only [List.mem_append, List.mem_cons] at h ⊢
        rcases h with h | h | h
        · exact Or.inr (Or.inl h)
        · exact Or.inr (Or.inr (Or.inl h))
        · rcases ihr h with h | h
          · exact Or.inl h
          · exact Or.inr (Or.inr (Or.inr h))
      · rw [if_neg h4] at h
        exact Or.inr h

/-- Insertion preserves a tree-wide bound that the new pair satisfies. -/
theorem forallTree_insert {p : String → RecordData → Prop} {t : TreeNode}
    {key : String} {d : RecordData} (hp : p key d) (h : ForallTree p t) :
    ForallTree p (insertNode t key d) := by
  induction t with
  | nil => exact .node hp .nil .nil
  | node k0 d0 l r ihl ihr =>
    rcases forallTree_node_iff.mp h with ⟨h0, hl, hr⟩
    rw [insertNode]
    by_cases h2 : key < k0
    · rw [if_pos h2]
      exact .node h0 (ihl hl) hr
    · rw [if_neg h2]
      by_cases h4 : k0 < key
      · rw [if_pos h4]
        exact .node h0 hl (ihr hr)
      · rw [if_neg h4]
        exact h

/-- Insertion preserves the strict BST invariant. -/
theorem bst_insert {t : TreeNode} {key : String} {d : RecordData}
    (hb : BST t) : BST (insertNode t key d) := by
  induction t with
  | nil => exact .node .nil .nil .nil .nil
  | node k0 d0 l r ihl ihr =>
    rcases bst_node_iff.mp hb with ⟨hfl, hfr, hbl, hbr⟩
    rw [insertNode]
    by_cases h2 : key < k0
    · rw [if_pos h2]
      exact .node (forallTree_insert h2 hfl) hfr (ihl hbl) hbr
    · rw [if_neg h2]
      by_cases h4 : k0 < key
      · rw [if_pos h4]
        exact .node hfl (forallTree_insert h4 hfr) hbl (ihr hbr)
      · rw [if_neg h4]
        exact hb

/-- findMin of a non-empty tree returns the head of its in-order pair list. -/
theorem findMin_cons {t : TreeNode} (h : t ≠ .nil) :
    ∃ pr tl, findMin t = some pr ∧ toList t = pr :: tl := by
  induction t with
  | nil => exact absurd rfl h
  | node k d l r ihl ihr =>
    cases l with
    | nil =>
      exact ⟨(k, d), toList r, rfl, by rw [toList_node]; rfl⟩
    | node lk ld ll lr =>
      rcases ihl (by simp) with ⟨pr, tl, hm, ht⟩
      refine ⟨pr, tl ++ (k, d) :: toList r, ?_, ?_⟩
      · rw [findMin, hm]
      · rw [toList_node, ht]
        simp

theorem deleteNode_nil {key : String} : deleteNode .nil key = .nil := rfl

theorem deleteNode_lt {k0 : String} {d0 : RecordData} {l r : TreeNode}
    {key : String} (h : key < k0) :
    deleteNode (.node k0 d0 l r) key = .node k0 d0 (deleteNode l key) r := by
  rw [deleteNode.eq_def]
  simp only [if_pos h]

theorem deleteNode_gt {k0 : String} {d0 : RecordData} {l r : TreeNode}
    {key : String} (h : k0 < key) :
    deleteNode (.node k0 d0 l r) key = .node k0 d0 l (deleteNode r key) := by
  rw [deleteNode.eq_def]
  simp only [if_neg (asymm h), if_pos h]

theorem deleteNode_eq_left_nil {k0 : String} {d0 : RecordData} {r : TreeNode} :
    deleteNode (.node k0 d0 .nil r) k0 = r := by
  rw [deleteNode.eq_def]
  simp only [lt_irrefl, if_false]

theorem deleteNode_eq_right_nil {k0 : String} {d0 : RecordData}
    {lk : String} {ld : RecordData} {ll lr : TreeNode} :
    deleteNode (.node k0 d0 (.node lk ld ll lr) .nil) k0 = .node lk ld ll lr := by
  rw [deleteNode.eq_def]
  simp only [lt_irrefl, if_false]

theorem deleteNode_eq_two {k0 : String} {d0 : RecordData}
    {lk : String} {ld : RecordData} {ll lr : TreeNode}
    {rk : String} {rd : RecordData} {rl rr : TreeNode}
    {mk : String} {md : RecordData}
    (hmin : findMin (.node rk rd rl rr) = some (mk, md)) :
    deleteNode (.node k0 d0 (.node lk ld ll lr) (.node rk rd rl rr)) k0 =
      .node mk md (.node lk ld ll lr)
        (deleteNode (.node rk rd rl rr) mk) := by
  rw [deleteNode.eq_def]
  simp only [lt_irrefl, if_false, hmin]

/-- Deletion only ever drops pairs: every surviving pair was in the tree. -/
theorem toList_delete_subset {t : TreeNode} :
    ∀ (key : String), ∀ pr ∈ toList (deleteNode t key), pr ∈ toList t := by
  induction t with
  | nil =>
    intro key pr h
    rw [deleteNode_nil] at h
    exact h
  | node k0 d0 l r ihl ihr =>
    intro key pr h
    by_cases h2 : key < k0
    · rw [deleteNode_lt h2, toList_node] at h
      rw [toList_node]
      simp only [List.mem_append, List.mem_cons] at h ⊢
      rcases h with h | h | h
      · exact Or.inl (ihl key pr h)
      · exact Or.inr (Or.inl h)
      · exact Or.inr (Or.inr h)
    · by_cases h4 : k0 < key
      · rw [deleteNode_gt h4, toList_node] at h
        rw [toList_node]
        simp only [List.mem_append, List.mem_cons] at h ⊢
        rcases h with h | h | h
        · exact Or.inl h
        · exact Or.inr (Or.inl h)
        · exact Or.inr (Or.inr (ihr key pr h))
      · have he : k0 = key := le_antisymm (not_lt.mp h2) (not_lt.mp h4)
        subst he
        rw [toList_node]
        simp only [List.mem_append, List.mem_cons]
        cases l with
        | nil =>
          rw [deleteNode_eq_left_nil] at h
          exact Or.inr (Or.inr h)
        | node lk ld ll lr =>
          cases r with
          | nil =>
            rw [deleteNode_eq_right_nil] at h
            exact Or.inl h
          | node rk rd rl rr =>
            rcases findMin_cons (t := .node rk rd rl rr) (by simp) with
              ⟨⟨mk, md⟩, tl, hm, ht⟩
            rw [deleteNode_eq_two hm, toList_node] at h
            simp only [List.mem_append, List.mem_cons] at h
            rcases h with h | h | h
            · exact Or.inl h
            · subst h
              refine Or.inr (Or.inr ?_)
              rw [ht]
              exact List.mem_cons_self _ _
            · exact Or.inr (Or.inr (ihr mk pr h))

/-- Key-level form of toList_delete_subset. -/
theorem keys_delete_subset {t : TreeNode} {key k2 : String}
    (h : k2 ∈ keys (deleteNode t key)) : k2 ∈ keys t := by
  rcases mem_keys.mp h with ⟨d, hd⟩
  exact mem_keys.mpr ⟨d, toList_delete_subset key (k2, d) hd⟩

/-- Deletion preserves any tree-wide bound. -/
theorem delete_forallTree {p : String → RecordData → Prop} {t : TreeNode}
    {key : String} (h : ForallTree p t) : ForallTree p (deleteNode t key) :=
  forallTree_iff_toList.mpr fun pr hpr =>
    forallTree_iff_toList.mp h pr (toList_delete_subset key pr hpr)

/-- In a BST, the deleted key is gone afterwards. -/
theorem delete_not_mem_self {t : TreeNode} (hb : BST t) {key : String} :
    key ∉ keys (deleteNode t key) := by
  induction hb generalizing key with
  | nil =>
    rw [deleteNode_nil, keys_nil]
    exact List.not_mem_nil _
  | @node k0 d0 l r hfl hfr hbl hbr ihl ihr =>
    intro hmem
    by_cases h2 : key < k0
    · rw [deleteNode_lt h2, keys_node] at hmem
      simp only [List.mem_append, List.mem_cons] at hmem
      rcases hmem with h | h | h
      · exact ihl h
      · exact absurd h (ne_of_lt h2)
      · exact absurd h2 (asymm (forallTree_keys hfr h))
    · by_cases h4 : k0 < key
      · rw [deleteNode_gt h4, keys_node] at hmem
        simp only [List.mem_append, List.mem_cons] at hmem
        rcases hmem with h | h | h
        · exact absurd h4 (asymm (forallTree_keys hfl h))
        · exact absurd h.symm (ne_of_lt h4)
        · exact ihr h
      · have he : k0 = key := le_antisymm (not_lt.mp h2) (not_lt.mp h4)
        subst he
        cases l with
        | nil =>
          rw [deleteNode_eq_left_nil] at hmem
          exact absurd (forallTree_keys hfr hmem) (lt_irrefl _)
        | node lk ld ll lr =>
          cases r with
          | nil =>
            rw [deleteNode_eq_right_nil] at hmem
            exact absurd (forallTree_keys hfl hmem) (lt_irrefl _)
          | node rk rd rl rr =>
            rcases findMin_cons (t := .node rk rd rl rr) (by simp) with
              ⟨⟨mk, md⟩, tl, hm, ht⟩
            have hmkmem : mk ∈ keys (.node rk rd rl rr) :=
              mem_keys.mpr ⟨md, by rw [ht]; exact List.mem_cons_self _ _⟩
            rw [deleteNode_eq_two hm, keys_node] at hmem
            simp only [List.mem_append, List.mem_cons] at hmem
            rcases hmem with h | h | h
            · exact absurd (forallTree_keys hfl h) (lt_irrefl _)
            · exact absurd (h ▸ forallTree_keys hfr hmkmem) (lt_irrefl _)
            · exact absurd (forallTree_keys hfr (keys_delete_subset h)) (lt_irrefl _)

/-- Deletion preserves the strict BST invariant. -/
theorem delete_BST {t : TreeNode} (hb : BST t) {key : String} :
    BST (deleteNode t key) := by
  induction hb generalizing key with
  | nil =>
    rw [deleteNode_nil]
    exact .nil
  | @node k0 d0 l r hfl hfr hbl hbr ihl ihr =>
    by_cases h2 : key < k0
    · rw [deleteNode_lt h2]
      exact .node (delete_forallTree hfl) hfr ihl hbr
    · by_cases h4 : k0 < key
      · rw [deleteNode_gt h4]
        exact .node hfl (delete_forallTree hfr) hbl ihr
      · have he : k0 = key := le_antisymm (not_lt.mp h2) (not_lt.mp h4)
        subst he
        cases l with
        | nil =>
          rw [deleteNode_eq_left_nil]
          exact hbr
        | node lk ld ll lr =>
          cases r with
          | nil =>
            rw [deleteNode_eq_right_nil]
            exact hbl
          | node rk rd rl rr =>
            rcases findMin_cons (t := .node rk rd rl rr) (by simp) with
              ⟨⟨mk, md⟩, tl, hm, ht⟩
            have hmkmem : mk ∈ keys (.node rk rd rl rr) :=
              mem_keys.mpr ⟨md, by rw [ht]; exact List.mem_cons_self _ _⟩
            have hk0mk : k0 < mk := forallTree_keys hfr hmkmem
            have hkeysr : keys (.node rk rd rl rr) = mk :: tl.map Prod.fst := by
              rw [keys, ht]
              rfl
            have htlgt : ∀ x ∈ tl.map Prod.fst, mk < x := by
              have hs := keys_sorted hbr
              rw [hkeysr] at hs
              exact List.rel_of_sorted_cons hs
            rw [deleteNode_eq_two hm]
            refine .node ?_ ?_ hbl ihr
            · exact forallTree_iff_toList.mpr fun pr hpr =>
                lt_trans (forallTree_iff_toList.mp hfl pr hpr) hk0mk
            · refine forallTree_iff_toList.mpr fun pr hpr => ?_
              have hin : pr ∈ toList (.node rk rd rl rr) :=
                toList_delete_subset mk pr hpr
              rw [ht] at hin
              rcases List.mem_cons.mp hin with h | h
              · exfalso
                have : pr.1 ∈ keys (deleteNode (.node rk rd rl rr) mk) :=
                  mem_keys.mpr ⟨pr.2, hpr⟩
                rw [h] at this
                exact delete_not_mem_self hbr this
              · exact htlgt pr.1 (List.mem_map_of_mem Prod.fst h)

/-- In a BST, searching for the deleted key fails after deletion. -/
theorem search_delete_self {t : TreeNode} (hb : BST t) {key : String} :
    searchNode (deleteNode t key) key = none := by
  cases hs : searchNode (deleteNode t key) key with
  | none => rfl
  | some d =>
    exact absurd (mem_keys.mpr ⟨d, mem_toList_of_search hs⟩)
      (delete_not_mem_self hb)

/-- Deleting one key keeps every pair with a different key. -/
theorem mem_toList_delete {t : TreeNode} (hb : BST t) {key k2 : String}
    {d2 : RecordData} (h : (k2, d2) ∈ toList t) (hne : k2 ≠ key) :
    (k2, d2) ∈ toList (deleteNode t key) := by
  induction hb generalizing key with
  | nil => simp [toList] at h
  | @node k0 d0 l r hfl hfr hbl hbr ihl ihr =>
    rw [toList_node] at h
    simp only [List.mem_append, List.mem_cons] at h
    by_cases h2 : key < k0
    · rw [deleteNode_lt h2, toList_node]
      simp only [List.mem_append, List.mem_cons]
      rcases h with h | h | h
      · exact Or.inl (ihl h hne)
      · exact Or.inr (Or.inl h)
      · exact Or.inr (Or.inr h)
    · by_cases h4 : k0 < key
      · rw [deleteNode_gt h4, toList_node]
        simp only [List.mem_append, List.mem_cons]
        rcases h with h | h | h
        · exact Or.inl h
        · exact Or.inr (Or.inl h)
        · exact Or.inr (Or.inr (ihr h hne))
      · have he : k0 = key := le_antisymm (not_lt.mp h2) (not_lt.mp h4)
        subst he
        cases l with
        | nil =>
          rw [deleteNode_eq_left_nil]
          rcases h with h | h | h
          · simp [toList] at h
          · exact absurd (congrArg Prod.fst h) hne
          · exact h
        | node lk ld ll lr =>
          cases r with
          | nil =>
            rw [deleteNode_eq_right_nil]
            rcases h with h | h | h
            · exact h
            · exact absurd (congrArg Prod.fst h) hne
            · simp [toList] at h
          | node rk rd rl rr =>
            rcases findMin_cons (t := .node rk rd rl rr) (by simp) with
              ⟨⟨mk, md⟩, tl, hm, ht⟩
            rw [deleteNode_eq_two hm, toList_node]
            simp only [List.mem_append, List.mem_cons]
            rcases h with h | h | h
            · exact Or.inl h
            · exact absurd (congrArg Prod.fst h) hne
            · by_cases hk2mk : k2 = mk
              · subst hk2mk
                have hmem : (k2, md) ∈ toList (.node rk rd rl rr) := by
                  rw [ht]
                  exact List.mem_cons_self _ _
                have : d2 = md := toList_payload_unique hbr h hmem
                subst this
                exact Or.inr (Or.inl rfl)
              · exact Or.inr (Or.inr (ihr h hk2mk))

/-- Deleting one key does not disturb searches for any other key. -/
theorem search_delete_ne {t : TreeNode} (hb : BST t) {key k2 : String}
    (hne : k2 ≠ key) :
    searchNode (deleteNode t key) k2 = searchNode t k2 := by
  cases hs : searchNode t k2 with
  | some d =>
    exact search_of_mem_toList (delete_BST hb)
      (mem_toList_delete hb (mem_toList_of_search hs) hne)
  | none =>
    have h1 : k2 ∉ keys t := (search_eq_none_iff hb).mp hs
    exact (search_eq_none_iff (delete_BST hb)).mpr
      fun hmem => h1 (keys_delete_subset hmem)

/-- Deleting an absent key is a no-op (the tree is returned unchanged). -/
theorem delete_no_op {t : TreeNode} {key : String}
    (h : searchNode t key = none) : deleteNode t key = t := by
  induction t with
  | nil => rfl
  | node k0 d0 l r ihl ihr =>
    rw [searchNode] at h
    by_cases h1 : k0 = key
    · rw [if_pos h1] at h
      cases h
    · rw [if_neg h1] at h
      by_cases h2 : key < k0
      · rw [if_pos h2] at h
        rw [deleteNode_lt h2, ihl h]
      · rw [if_neg h2] at h
        have h4 : k0 < key := lt_of_le_of_ne (not_lt.mp h2) h1
        rw [deleteNode_gt h4, ihr h]

/-- In a BST, deletion removes exactly the first (only) occurrence of the
key from the in-order key sequence. -/
theorem keys_delete_erase {t : TreeNode} (hb : BST t) {key : String} :
    keys (deleteNode t key) = (keys t).erase key := by
  induction hb generalizing key with
  | nil => rfl
  | @node k0 d0 l r hfl hfr hbl hbr ihl ihr =>
    by_cases h2 : key < k0
    · rw [deleteNode_lt h2, keys_node, keys_node, ihl]
      by_cases hmem : key ∈ keys l
      · rw [List.erase_append_left _ hmem]
      · have hnr : key ∉ keys r := fun hm => absurd h2 (asymm (forallTree_keys hfr hm))
        have hk0 : ¬ (k0 == key) = true := by
          simp only [beq_iff_eq]
          exact fun h => (ne_of_lt h2) h.symm
        rw [List.erase_of_not_mem hmem, List.erase_append_right _ hmem,
          List.erase_cons_tail hk0, List.erase_of_not_mem hnr]
    · by_cases h4 : k0 < key
      · rw [deleteNode_gt h4, keys_node, keys_node, ihr]
        have hnl : key ∉ keys l := fun hm => absurd h4 (asymm (forallTree_keys hfl hm))
        have hk0 : ¬ (k0 == key) = true := by
          simp only [beq_iff_eq]
          exact ne_of_lt h4
        rw [List.erase_append_right _ hnl, List.erase_cons_tail hk0]
      · have he : k0 = key := le_antisymm (not_lt.mp h2) (not_lt.mp h4)
        subst he
        have hnl : k0 ∉ keys l := fun hm => absurd (forallTree_keys hfl hm) (lt_irrefl _)
        cases l with
        | nil =>
          rw [deleteNode_eq_left_nil]
          conv_rhs => rw [keys_node]
          rw [keys_nil, List.nil_append, List.erase_cons_head]
        | node lk ld ll lr =>
          cases r with
          | nil =>
            rw [deleteNode_eq_right_nil]
            conv_rhs => rw [keys_node]
            rw [List.erase_append_right _ hnl, keys_nil, List.erase_cons_head,
              List.append_nil]
          | node rk rd rl rr =>
            rcases findMin_cons (t := .node rk rd rl rr) (by simp) with
              ⟨⟨mk, md⟩, tl, hm, ht⟩
            have hkeysr : keys (.node rk rd rl rr) = mk :: tl.map Prod.fst := by
              rw [keys, ht]
              rfl
            rw [deleteNode_eq_two hm]
            conv_lhs => rw [keys_node]
            conv_rhs => rw [keys_node]
            rw [ihr, hkeysr, List.erase_cons_head,
              List.erase_append_right _ hnl, List.erase_cons_head]

/-- Deleting a list of keys, one at a time, preserves the BST invariant. -/
theorem foldl_delete_BST {ks : List String} {t : TreeNode} (hb : BST t) :
    BST (ks.foldl deleteNode t) := by
  induction ks generalizing t with
  | nil => exact hb
  | cons a as ih =>
    rw [List.foldl_cons]
    exact ih (delete_BST hb)

/-- Searching after deleting a list of keys: deleted keys are gone, all
other searches are undisturbed. -/
theorem search_foldl_delete {ks : List String} {t : TreeNode} (hb : BST t)
    {k2 : String} :
    searchNode (ks.foldl deleteNode t) k2 =
      if k2 ∈ ks then none else searchNode t k2 := by
  induction ks generalizing t with
  | nil => simp
  | cons a as ih =>
    rw [List.foldl_cons, ih (delete_BST hb)]
    by_cases hmem : k2 ∈ as
    · simp [hmem]
    · by_cases hka : k2 = a
      · subst hka
        simp [hmem, search_delete_self hb]
      · simp [hmem, hka, search_delete_ne hb hka]

/-- Every key in the tree after deleting a list of keys was in the tree. -/
theorem keys_foldl_delete_subset {ks : List String} {t : TreeNode}
    {k2 : String} (h : k2 ∈ keys (ks.foldl deleteNode t)) : k2 ∈ keys t := by
  induction ks generalizing t with
  | nil => exact h
  | cons a as ih =>
    rw [List.foldl_cons] at h
    exact keys_delete_subset (ih h)

/-- The collected ticket keys are exactly the keys of ticket pairs whose
eventCode matches. -/
theorem mem_collect_iff {t : TreeNode} {code : Int} {k2 : String} :
    k2 ∈ collectTicketKeysForEvent t code ↔
      ∃ tk : Ticket, (k2, RecordData.ticketData tk) ∈ toList t ∧
        tk.eventCode = code := by
  induction t with
  | nil => simp [collectTicketKeysForEvent, toList]
  | node k0 d0 l r ihl ihr =>
    rw [collectTicketKeysForEvent.eq_def, toList_node]
    simp only [List.mem_append, List.mem_cons, ihl, ihr]
    constructor
    · rintro ((⟨tk, htk, hc⟩ | h) | ⟨tk, htk, hc⟩)
      · exact ⟨tk, Or.inl htk, hc⟩
      · cases d0 with
        | eventData e => simp at h
        | ticketData tk =>
          dsimp only at h
          by_cases hc : tk.eventCode = code
          · rw [if_pos hc] at h
            simp only [List.mem_singleton] at h
            subst h
            exact ⟨tk, Or.inr (Or.inl rfl), hc⟩
          · rw [if_neg hc] at h
            simp at h
      · exact ⟨tk, Or.inr (Or.inr htk), hc⟩
    · rintro ⟨tk, (htk | htk | htk), hc⟩
      · exact Or.inl (Or.inl ⟨tk, htk, hc⟩)
      · rw [Prod.mk.injEq] at htk
        refine Or.inl (Or.inr ?_)
        rw [← htk.2]
        dsimp only
        rw [if_pos hc, htk.1]
        exact List.mem_singleton.mpr rfl
      · exact Or.inr ⟨tk, htk, hc⟩

/-- searchNode leaves the tree exactly as it was. -/
theorem searchNodeFr_frame (t : TreeNode) (key : String) :
    (searchNodeFr t key).2 = t := by
  induction t with
  | nil => rfl
  | node k d l r ihl ihr =>
    rw [searchNodeFr]
    by_cases h1 : k = key
    · rw [if_pos h1]
    · rw [if_neg h1]
      by_cases h2 : key < k
      · simp only [if_pos h2, ihl]
      · simp only [if_neg h2, ihr]

/-- findMin leaves the tree exactly as it was. -/
theorem findMinFr_frame (t : TreeNode) :
    (findMinFr t).2 = t := by
  induction t with
  | nil => rfl
  | node k d l r ihl ihr =>
    cases l with
    | nil => rfl
    | node lk ld ll lr =>
      rw [findMinFr]
      simp only [ihl]

/-- inorderTraversalPrint leaves the tree exactly as it was. -/
theorem inorderTraversalPrintFr_frame (t : TreeNode) (ft : NodeType)
    (ecf : Int) : (inorderTraversalPrintFr t ft ecf).2 = t := by
  induction t with
  | nil => rfl
  | node k d l r ihl ihr =>
    rw [inorderTraversalPrintFr.eq_def]
    simp only [ihl, ihr]

/-- collectTicketKeysForEvent leaves the tree exactly as it was. -/
theorem collectTicketKeysForEventFr_frame (t : TreeNode) (code : Int) :
    (collectTicketKeysForEventFr t code).2 = t := by
  induction t with
  | nil => rfl
  | node k d l r ihl ihr =>
    rw [collectTicketKeysForEventFr.eq_def]
    simp only [ihl, ihr]

/-- Any single raw index operation preserves the BST invariant. -/
theorem applyOp_BST {t : TreeNode} (hb : BST t) (op : Op) :
    BST (applyOp t op) := by
  cases op with
  | ins key d => exact bst_insert hb
  | del key => exact delete_BST hb

/-- Any sequence of raw index operations, started from any BST,
yields a BST. -/
theorem foldl_applyOp_BST {ops : List Op} {t : TreeNode} (hb : BST t) :
    BST (ops.foldl applyOp t) := by
  induction ops generalizing t with
  | nil => exact hb
  | cons o os ih =>
    rw [List.foldl_cons]
    exact ih (applyOp_BST hb o)

/-- Tree component of addEvent, by cases on its guards. -/
theorem addEvent_fst (t : TreeNode) (ev : Event) :
    (addEvent t ev).1 =
      if ev.code < 0 then t
      else if (searchNode t (eventKey ev.code)).isSome then t
      else insertNode t (eventKey ev.code) (.eventData ev) := by
  by_cases h1 : ev.code < 0
  · rw [addEvent, if_pos h1, if_pos h1]
  · rw [addEvent, if_neg h1, if_neg h1]
    by_cases h2 : (searchNode t (eventKey ev.code)).isSome = true
    · rw [if_pos h2, if_pos h2]
    · rw [if_neg h2, if_neg h2]

/-- Tree component of addTicket, by cases on its guards. -/
theorem addTicket_fst (t : TreeNode) (tk : Ticket) :
    (addTicket t tk).1 =
      if tk.eventCode < 0 then t
      else if (searchNode t (eventKey tk.eventCode)).isNone then t
      else if validateSeat tk.seat = false then t
      else if (searchNode t (ticketKey tk.eventCode tk.seat)).isSome then t
      else insertNode t (ticketKey tk.eventCode tk.seat) (.ticketData tk) := by
  by_cases h1 : tk.eventCode < 0
  · rw [addTicket, if_pos h1, if_pos h1]
  · rw [addTicket, if_neg h1, if_neg h1]
    by_cases h2 : (searchNode t (eventKey tk.eventCode)).isNone = true
    · rw [if_pos h2, if_pos h2]
    · rw [if_neg h2, if_neg h2]
      by_cases h3 : validateSeat tk.seat = false
      · rw [if_pos h3, if_pos h3]
      · rw [if_neg h3, if_neg h3]
        by_cases h4 : (searchNode t (ticketKey tk.eventCode tk.seat)).isSome = true
        · rw [if_pos h4, if_pos h4]
        · rw [if_neg h4, if_neg h4]

/-- Tree component of removeEvent, by cases on its guards. -/
theorem removeEvent_fst (root : TreeNode) (code : Int) :
    (removeEvent root code).1 =
      if code < 0 then root
      else if (searchNode root (eventKey code)).isNone then root
      else deleteNode ((collectTicketKeysForEvent root code).foldl deleteNode root)
        (eventKey code) := by
  by_cases h1 : code < 0
  · rw [removeEvent, if_pos h1, if_pos h1]
  · rw [removeEvent, if_neg h1, if_neg h1]
    by_cases h2 : (searchNode root (eventKey code)).isNone = true
    · rw [if_pos h2, if_pos h2]
    · rw [if_neg h2, if_neg h2]

/-- One catalog operation keeps every tree key in the catalog key shape. -/
theorem goodKey_applyCatOp {t : TreeNode} (h : ∀ k ∈ keys t, GoodKey k)
    (op : CatOp) : ∀ k ∈ keys (applyCatOp t op), GoodKey k := by
  cases op with
  | addEventOp ev =>
    intro k hk
    rw [applyCatOp, addEvent_fst] at hk
    by_cases h1 : ev.code < 0
    · rw [if_pos h1] at hk
      exact h k hk
    · rw [if_neg h1] at hk
      by_cases h2 : (searchNode t (eventKey ev.code)).isSome = true
      · rw [if_pos h2] at hk
        exact h k hk
      · rw [if_neg h2] at hk
        rcases mem_keys_insert_sub hk with hkey | hk2
        · exact ⟨ev.code, not_lt.mp h1, Or.inl hkey⟩
        · exact h k hk2
  | addTicketOp tk =>
    intro k hk
    rw [applyCatOp, addTicket_fst] at hk
    by_cases h1 : tk.eventCode < 0
    · rw [if_pos h1] at hk
      exact h k hk
    · rw [if_neg h1] at hk
      by_cases h2 : (searchNode t (eventKey tk.eventCode)).isNone = true
      · rw [if_pos h2] at hk
        exact h k hk
      · rw [if_neg h2] at hk
        by_cases h3 : validateSeat tk.seat = false
        · rw [if_pos h3] at hk
          exact h k hk
        · rw [if_neg h3] at hk
          by_cases h4 : (searchNode t (ticketKey tk.eventCode tk.seat)).isSome = true
          · rw [if_pos h4] at hk
            exact h k hk
          · rw [if_neg h4] at hk
            rcases mem_keys_insert_sub hk with hkey | hk2
            · exact ⟨tk.eventCode, not_lt.mp h1, Or.inr ⟨tk.seat, hkey⟩⟩
            · exact h k hk2
  | removeEventOp c =>
    intro k hk
    rw [applyCatOp, removeEvent_fst] at hk
    by_cases h1 : c < 0
    · rw [if_pos h1] at hk
      exact h k hk
    · rw [if_neg h1] at hk
      by_cases h2 : (searchNode t (eventKey c)).isNone = true
      · rw [if_pos h2] at hk
        exact h k hk
      · rw [if_neg h2] at hk
        exact h k (keys_foldl_delete_subset (keys_delete_subset hk))

/-- A catalog-operation sequence keeps every key in the catalog key shape. -/
theorem goodKey_foldl {ops : List CatOp} {t : TreeNode}
    (h : ∀ k ∈ keys t, GoodKey k) :
    ∀ k ∈ keys (ops.foldl applyCatOp t), GoodKey k := by
  induction ops generalizing t with
  | nil => exact h
  | cons o os ih =>
    rw [List.foldl_cons]
    exact ih (goodKey_applyCatOp h o)

/-- Every key of a tree reachable by catalog operations has the catalog key
shape (built from a non-negative code). -/
theorem goodKey_applyCatOps (ops : List CatOp) :
    ∀ k ∈ keys (applyCatOps ops), GoodKey k :=
  goodKey_foldl fun k hk => absurd hk (List.not_mem_nil k)

/-- C1: removing an event from a BST-shaped index first collects every
dependent ticket key, then deletes the collected ticket keys, then the event
key; afterwards neither the event key nor any ticket key of that event is
found, and every other record is still found with its original payload. -/
theorem claim_remove_event_cascade (root : TreeNode) (code : Int)
    (hb : BST root) (hpos : 0 ≤ code)
    (hev : (searchNode root (eventKey code)).isSome = true) :
    (removeEvent root code).2 = none ∧
    (removeEvent root code).1 =
      deleteNode ((collectTicketKeysForEvent root code).foldl deleteNode root)
        (eventKey code) ∧
    searchNode (removeEvent root code).1 (eventKey code) = none ∧
    (∀ k tk, searchNode root k = some (.ticketData tk) → tk.eventCode = code →
      searchNode (removeEvent root code).1 k = none) ∧
    (∀ k d, searchNode root k = some d → k ≠ eventKey code →
      (∀ tk, d = RecordData.ticketData tk → tk.eventCode ≠ code) →
      searchNode (removeEvent root code).1 k = some d) := by
  have hneg : ¬ code < 0 := not_lt.mpr hpos
  have hnone : ¬ ((searchNode root (eventKey code)).isNone = true) := by
    intro hn
    rw [Option.isNone_iff_eq_none] at hn
    rw [hn] at hev
    simp at hev
  have hre : removeEvent root code =
      (deleteNode ((collectTicketKeysForEvent root code).foldl deleteNode root)
        (eventKey code), none) := by
    rw [removeEvent, if_neg hneg, if_neg hnone]
  have hb1 : BST ((collectTicketKeysForEvent root code).foldl deleteNode root) :=
    foldl_delete_BST hb
  rw [hre]
  refine ⟨rfl, rfl, search_delete_self hb1, ?_, ?_⟩
  · intro k tk hsk hcode
    have hkmem : k ∈ collectTicketKeysForEvent root code :=
      mem_collect_iff.mpr ⟨tk, mem_toList_of_search hsk, hcode⟩
    have h1 : searchNode ((collectTicketKeysForEvent root code).foldl
        deleteNode root) k = none := by
      rw [search_foldl_delete hb, if_pos hkmem]
    by_cases hkE : k = eventKey code
    · subst hkE
      exact search_delete_self hb1
    · rw [search_delete_ne hb1 hkE]
      exact h1
  · intro k d hsk hkE htk
    have hknotin : k ∉ collectTicketKeysForEvent root code := by
      intro hk
      rcases mem_collect_iff.mp hk with ⟨tk, hmem, hcode⟩
      have hs2 := search_of_mem_toList hb hmem
      rw [hsk] at hs2
      injection hs2 with h2
      exact htk tk h2 hcode
    have h1 : searchNode ((collectTicketKeysForEvent root code).foldl
        deleteNode root) k = searchNode root k := by
      rw [search_foldl_delete hb, if_neg hknotin]
    rw [search_delete_ne hb1 hkE, h1, hsk]

/-- Witness for C1 on a concrete index holding event 1 with two tickets and
event 2: after removeEvent 1, the event key and a ticket key are gone while
event 2 keeps its payload. -/
theorem claim_remove_event_cascade_witness :
    searchNode (removeEvent sampleRoot 1).1 (eventKey 1) = none ∧
    searchNode (removeEvent sampleRoot 1).1 (ticketKey 1 "a1") = none ∧
    searchNode (removeEvent sampleRoot 1).1 (eventKey 2) =
      some (.eventData sampleEvent2) := by
  have h := claim_remove_event_cascade sampleRoot 1 (by decide) (by decide)
    (by decide)
  refine ⟨h.2.2.1, ?_, ?_⟩
  · exact h.2.2.2.1 (ticketKey 1 "a1") sampleTicket1 (by decide) (by decide)
  · exact h.2.2.2.2 (eventKey 2) (.eventData sampleEvent2) (by decide)
      (by decide) (by intro tk htk; cases htk)

/-- C2: every sequence of inserts and deletes starting from the empty tree
yields a tree with the strict BST property, whose in-order key sequence is
strictly ascending with no duplicate keys. -/
theorem claim_bst_invariant (ops : List Op) :
    BST (applyOps ops) ∧ (keys (applyOps ops)).Sorted (· < ·) ∧
    (keys (applyOps ops)).Nodup := by
  have hb : BST (applyOps ops) := foldl_applyOp_BST .nil
  exact ⟨hb, keys_sorted hb, keys_nodup hb⟩

/-- C3: when the deleted key matches a node with two children, delete copies
the in-order successor (findMin of the right subtree) into the node and
deletes the successor's key from the right subtree; the resulting in-order
key sequence is the original one with exactly the deleted key removed, with
no key lost or duplicated. -/
theorem claim_two_child_delete (k : String) (d : RecordData) (l r : TreeNode)
    (hl : l ≠ .nil) (hr : r ≠ .nil) (hb : BST (.node k d l r)) :
    ∃ mk md, findMin r = some (mk, md) ∧
      deleteNode (.node k d l r) k = .node mk md l (deleteNode r mk) ∧
      keys (deleteNode (.node k d l r) k) = (keys (.node k d l r)).erase k ∧
      (keys (deleteNode (.node k d l r) k)).Nodup := by
  rcases findMin_cons hr with ⟨⟨mk, md⟩, tl, hm, ht⟩
  refine ⟨mk, md, hm, ?_, keys_delete_erase hb, keys_nodup (delete_BST hb)⟩
  cases l with
  | nil => exact absurd rfl hl
  | node lk ld ll lr =>
    cases r with
    | nil => exact absurd rfl hr
    | node rk rd rl rr => exact deleteNode_eq_two hm

/-- Witness for C3 on a concrete three-node tree whose root has two
children. -/
theorem claim_two_child_delete_witness :
    ∃ mk md,
      findMin (.node "c" (.eventData sampleEvent2) .nil .nil) = some (mk, md) ∧
      deleteNode (.node "b" (.eventData sampleEvent1)
          (.node "a" (.ticketData sampleTicket1) .nil .nil)
          (.node "c" (.eventData sampleEvent2) .nil .nil)) "b" =
        .node mk md (.node "a" (.ticketData sampleTicket1) .nil .nil)
          (deleteNode (.node "c" (.eventData sampleEvent2) .nil .nil) mk) ∧
      keys (deleteNode (.node "b" (.eventData sampleEvent1)
          (.node "a" (.ticketData sampleTicket1) .nil .nil)
          (.node "c" (.eventData sampleEvent2) .nil .nil)) "b") =
        (keys (.node "b" (.eventData sampleEvent1)
          (.node "a" (.ticketData sampleTicket1) .nil .nil)
          (.node "c" (.eventData sampleEvent2) .nil .nil))).erase "b" ∧
      (keys (deleteNode (.node "b" (.eventData sampleEvent1)
          (.node "a" (.ticketData sampleTicket1) .nil .nil)
          (.node "c" (.eventData sampleEvent2) .nil .nil)) "b")).Nodup :=
  claim_two_child_delete "b" (.eventData sampleEvent1)
    (.node "a" (.ticketData sampleTicket1) .nil .nil)
    (.node "c" (.eventData sampleEvent2) .nil .nil)
    (by decide) (by decide) (by decide)

/-- C4: on a BST, delete makes the deleted key unfindable, leaves every
other key's search result (and payload) unchanged, and is a no-op when the
key is absent. -/
theorem claim_delete_completeness (t : TreeNode) (key : String) (hb : BST t) :
    searchNode (deleteNode t key) key = none ∧
    (∀ k2, k2 ≠ key → searchNode (deleteNode t key) k2 = searchNode t k2) ∧
    (searchNode t key = none → deleteNode t key = t) :=
  ⟨search_delete_self hb, fun _ h2 => search_delete_ne hb h2,
    fun h => delete_no_op h⟩

/-- Witness for C4 on the concrete sample index. -/
theorem claim_delete_completeness_witness :
    searchNode (deleteNode sampleRoot (eventKey 1)) (eventKey 1) = none ∧
    searchNode (deleteNode sampleRoot (eventKey 1)) (eventKey 2) =
      searchNode sampleRoot (eventKey 2) ∧
    deleteNode sampleRoot (eventKey 7) = sampleRoot := by
  have h := claim_delete_completeness sampleRoot (eventKey 1) (by decide)
  have h7 := claim_delete_completeness sampleRoot (eventKey 7) (by decide)
  exact ⟨h.1, h.2.1 (eventKey 2) (by decide), h7.2.2 (by decide)⟩

/-- C5: inserting a key a second time (any payloads) is a no-op: the tree is
unchanged by the second insert, holds exactly one node for the key, and
still answers searches for that key with the first-inserted payload. -/
theorem claim_duplicate_insert_no_op (t : TreeNode) (key : String)
    (d1 d2 : RecordData) (hb : BST t) :
    insertNode (insertNode t key d1) key d2 = insertNode t key d1 ∧
    (keys (insertNode t key d1)).count key = 1 ∧
    (searchNode t key = none →
      searchNode (insertNode t key d1) key = some d1) := by
  have h1 : (searchNode (insertNode t key d1) key).isSome = true := by
    cases hs : searchNode t key with
    | none =>
      rw [search_insert_self hs]
      rfl
    | some d0 =>
      rw [insert_no_op (by rw [hs]; rfl), hs]
      rfl
  refine ⟨insert_no_op h1, ?_, fun hs => search_insert_self hs⟩
  exact List.count_eq_one_of_mem (keys_nodup (bst_insert hb))
    mem_keys_insert_self

/-- Witness for C5 on the concrete sample index with a fresh key. -/
theorem claim_duplicate_insert_no_op_witness :
    insertNode (insertNode sampleRoot (eventKey 3) (.eventData sampleEvent1))
        (eventKey 3) (.eventData sampleEvent2) =
      insertNode sampleRoot (eventKey 3) (.eventData sampleEvent1) ∧
    (keys (insertNode sampleRoot (eventKey 3)
        (.eventData sampleEvent1))).count (eventKey 3) = 1 ∧
    (searchNode sampleRoot (eventKey 3) = none →
      searchNode (insertNode sampleRoot (eventKey 3) (.eventData sampleEvent1))
        (eventKey 3) = some (.eventData sampleEvent1)) :=
  claim_duplicate_insert_no_op sampleRoot (eventKey 3) (.eventData sampleEvent1)
    (.eventData sampleEvent2) (by decide)

/-- C6: inserting a fresh key and then searching for it returns exactly the
inserted record. -/
theorem claim_insert_search_roundtrip (t : TreeNode) (key : String)
    (d : RecordData) (h : searchNode t key = none) :
    searchNode (insertNode t key d) key = some d :=
  search_insert_self h

/-- Witness for C6 on the concrete sample index. -/
theorem claim_insert_search_roundtrip_witness :
    searchNode (insertNode sampleRoot (ticketKey 2 "c149")
        (.ticketData sampleTicket2)) (ticketKey 2 "c149") =
      some (.ticketData sampleTicket2) :=
  claim_insert_search_roundtrip sampleRoot (ticketKey 2 "c149")
    (.ticketData sampleTicket2) (by decide)

/-- C7 counterexample: for eventCode -1 (no event key present in the empty
tree) addTicket fails with the invalid-code error, not UnknownEvent. -/
theorem claim_addTicket_unknown_event_cex :
    searchNode TreeNode.nil (eventKey (-1)) = none ∧
    addTicket TreeNode.nil ⟨"a1", "123456789", "Ann", "Lee", -1⟩ =
      (TreeNode.nil, some CatalogError.InvalidCode) ∧
    CatalogError.InvalidCode ≠ CatalogError.UnknownEvent := by decide

/-- C7 (amended): for every tree and every non-negative eventCode for which
no event key is present, addTicket fails with UnknownEvent before any
insertion and returns the tree unchanged. -/
theorem claim_addTicket_unknown_event (root : TreeNode) (tk : Ticket)
    (hpos : 0 ≤ tk.eventCode)
    (habs : searchNode root (eventKey tk.eventCode) = none) :
    addTicket root tk = (root, some CatalogError.UnknownEvent) := by
  have h1 : ¬ tk.eventCode < 0 := not_lt.mpr hpos
  have h2 : (searchNode root (eventKey tk.eventCode)).isNone = true := by
    rw [habs]
    rfl
  rw [addTicket, if_neg h1, if_pos h2]

/-- Witness for the amended C7 on the concrete sample index. -/
theorem claim_addTicket_unknown_event_witness :
    addTicket sampleRoot ⟨"a1", "123456789", "Ann", "Lee", 7⟩ =
      (sampleRoot, some CatalogError.UnknownEvent) :=
  claim_addTicket_unknown_event sampleRoot ⟨"a1", "123456789", "Ann", "Lee", 7⟩
    (by decide) (by decide)

/-- C8 counterexample: the validator accepts "a1x" although its remaining
characters "1x" do not parse as an integer (specSeatValid follows the
specification wording and rejects it). -/
theorem claim_seat_validation_cex :
    validateSeat "a1x" = true ∧ specSeatValid "a1x" = false := by decide

/-- C8 (amended): the validator accepts s iff s is 2-4 characters long, its
first character is case-insensitively in a..h, and atoi of the remaining
characters (an optionally signed maximal leading digit run, trailing
non-digits ignored) lies in [1, 500]. -/
theorem claim_seat_validation (s : String) :
    validateSeat s = true ↔
      (2 ≤ s.length ∧ s.length ≤ 4 ∧
       'a' ≤ (s.data.headD ' ').toLower ∧ (s.data.headD ' ').toLower ≤ 'h' ∧
       1 ≤ atoi (String.mk (s.data.drop 1)) ∧
       atoi (String.mk (s.data.drop 1)) ≤ 500) := by
  rw [validateSeat]
  by_cases h1 : (decide (s.length < 2) || decide (4 < s.length)) = true
  · rw [if_pos h1]
    simp only [Bool.or_eq_true, decide_eq_true_eq] at h1
    simp only [Bool.false_eq_true, false_iff]
    rintro ⟨ha, hb, -⟩
    omega
  · rw [if_neg h1]
    simp only [Bool.or_eq_true, decide_eq_true_eq, not_or, not_lt] at h1
    dsimp only
    by_cases h2 : (decide ((s.data.headD ' ').toLower < 'a') ||
        decide ('h' < (s.data.headD ' ').toLower)) = true
    · rw [if_pos h2]
      simp only [Bool.or_eq_true, decide_eq_true_eq] at h2
      simp only [Bool.false_eq_true, false_iff]
      rintro ⟨-, -, hc, hd, -⟩
      rcases h2 with h2 | h2
      · exact absurd hc (not_le.mpr h2)
      · exact absurd hd (not_le.mpr h2)
    · rw [if_neg h2]
      simp only [Bool.or_eq_true, decide_eq_true_eq, not_or, not_lt] at h2
      by_cases h3 : (decide (atoi (String.mk (s.data.drop 1)) < 1) ||
          decide (500 < atoi (String.mk (s.data.drop 1)))) = true
      · rw [if_pos h3]
        simp only [Bool.or_eq_true, decide_eq_true_eq] at h3
        simp only [Bool.false_eq_true, false_iff]
        rintro ⟨-, -, -, -, he, hf⟩
        rcases h3 with h3 | h3
        · omega
        · omega
      · rw [if_neg h3]
        simp only [Bool.or_eq_true, decide_eq_true_eq, not_or, not_lt] at h3
        simp only [true_iff]
        exact ⟨h1.1, h1.2, h2.1, h2.2, h3.1, h3.2⟩

/-- C9: the four read-only operations (search, subtree minimum, filtered
in-order enumeration, ticket-key collection), with the heap threaded
through, return the tree exactly as it was: no key, tag, payload or child
link changes. -/
theorem claim_readonly_frame :
    (∀ t key, (searchNodeFr t key).2 = t) ∧
    (∀ t, (findMinFr t).2 = t) ∧
    (∀ t ft ecf, (inorderTraversalPrintFr t ft ecf).2 = t) ∧
    (∀ t code, (collectTicketKeysForEventFr t code).2 = t) :=
  ⟨searchNodeFr_frame, findMinFr_frame, inorderTraversalPrintFr_frame,
    collectTicketKeysForEventFr_frame⟩

/-- C10: every catalog operation taking an event code rejects a negative
code up front, independently of the tree, returning it unchanged; and no
tree reachable by catalog operations ever holds a key built from a negative
code. -/
theorem claim_negative_code_rejected (root : TreeNode) (code : Int)
    (ev : Event) (tk : Ticket) (hc : code < 0) (hev : ev.code < 0)
    (htk : tk.eventCode < 0) :
    addEvent root ev = (root, some CatalogError.InvalidCode) ∧
    findEvent root code = FindResult.invalidCode ∧
    removeEvent root code = (root, some CatalogError.InvalidCode) ∧
    addTicket root tk = (root, some CatalogError.InvalidCode) ∧
    (∀ ops : List CatOp, ∀ k ∈ keys (applyCatOps ops), GoodKey k) := by
  refine ⟨?_, ?_, ?_, ?_, fun ops => goodKey_applyCatOps ops⟩
  · rw [addEvent, if_pos hev]
  · rw [findEvent, if_pos hc]
  · rw [removeEvent, if_pos hc]
  · rw [addTicket, if_pos htk]

/-- Witness for C10 at code -1 (the value getIntegerInput yields on a parse
failure) on the concrete sample index. -/
theorem claim_negative_code_rejected_witness :
    addEvent sampleRoot ⟨"01/01/2025", "10:00", -1, "X"⟩ =
      (sampleRoot, some CatalogError.InvalidCode) ∧
    findEvent sampleRoot (-1) = FindResult.invalidCode ∧
    removeEvent sampleRoot (-1) = (sampleRoot, some CatalogError.InvalidCode) ∧
    addTicket sampleRoot ⟨"a1", "1", "A", "B", -1⟩ =
      (sampleRoot, some CatalogError.InvalidCode) ∧
    (∀ ops : List CatOp, ∀ k ∈ keys (applyCatOps ops), GoodKey k) :=
  claim_negative_code_rejected sampleRoot (-1) ⟨"01/01/2025", "10:00", -1, "X"⟩
    ⟨"a1", "1", "A", "B", -1⟩ (by decide) (by decide) (by decide)
